import Mathlib

/-!
Verification of the beansoup CSV reconciliation engine.

This file gives a shallow embedding of `beansoup/importers/csv.py`:

* `sort_rows` (the chronological reconciliation engine, lines 219-275), embedded
  as `placeRows` (the inner `while stack` placement loop), `openingBalances`
  (the candidate opening balances), `tryCandidates` (the `for opening_balance in
  opening_balances` loop) and `sort_rows` itself;
* `Importer.extract` (lines 103-155), embedded as `extract` together with
  `mkTxns` (the per-row transaction loop), `mkBalanceEntry`
  (`Importer.create_balance_entry`) and `periodicBalances` (the
  `for row in reversed(rows)` monthly-balance loop).

Python `Decimal` values are embedded as `ℚ` (exact addition, subtraction and
equality, which is all the code uses); `datetime.date` values as `Int` day
ordinals (`date + datetime.timedelta(days=1)` becomes `+ 1`, and comparison of
dates is integer comparison).  Python code that can raise (`unbalanced_rows[0]`
and `rows[-1]`) is embedded in the `Except Unit` monad, with `.error ()`
standing for an uncaught `IndexError`; we prove those paths unreachable.

The module `beansoup.utils.periods` is not part of the sources; following the
specification, which treats it as an external collaborator ("given a date and an
anchor day, returns the nearest enclosing period start/end and supports stepping
to next/previous period"), the extraction policy is parametrised by a
`PeriodsApi` record of those three functions.
-/

/-- A row of the parsed CSV file (the `Row` namedtuple, csv.py line 31):
line number, transaction date, description, signed amount, and the account
balance immediately following the transaction. -/
structure Row where
  lineno : Nat
  date : Int
  description : String
  amount : ℚ
  balance : ℚ
deriving DecidableEq

/-- The `while stack` placement loop of `sort_rows` (csv.py lines 251-269).

The Python list `stack` is popped from its end, so it is embedded as a Lean
list popped from the head (hence `stack = list(reversed(rows))` becomes
`stack = rows`, and `stack.extend(unbalanced_rows)` becomes prepending
`unbalanced.reverse`).  Returns the final `(balanced_rows, unbalanced_rows)`
pair at loop exit (either `break` or stack exhaustion). -/
def placeRows (prev : ℚ) (stack unbalanced balanced : List Row) : List Row × List Row :=
  match stack with
  | [] => (balanced, unbalanced)
  | row :: rest =>
    if prev + row.amount = row.balance then
      placeRows row.balance (unbalanced.reverse ++ rest) [] (balanced ++ [row])
    else
      match unbalanced with
      | u0 :: urest =>
        if u0.date ≠ row.date then (balanced, unbalanced)
        else placeRows prev rest ((u0 :: urest) ++ [row]) balanced
      | [] => placeRows prev rest [row] balanced
termination_by (stack.length + unbalanced.length, stack.length)
decreasing_by
  · apply Prod.Lex.left
    simp
    omega
  · have e : rest.length + ((u0 :: urest) ++ [row]).length
        = (row :: rest).length + (u0 :: urest).length := by simp; omega
    rw [e]
    apply Prod.Lex.right
    simp
  · have e : rest.length + [row].length = (row :: rest).length + ([] : List Row).length := by
      simp
    rw [e]
    apply Prod.Lex.right
    simp

/-- The candidate opening balances of `sort_rows` (csv.py lines 239-241):
`row.balance - row.amount` for every row of the leading run of rows sharing
the first row's date (`itertools.takewhile`). -/
def openingBalances (rows : List Row) : List ℚ :=
  match rows with
  | [] => []
  | r0 :: _ => (rows.takeWhile fun r => r.date = r0.date).map fun r => r.balance - r.amount

/-- The `for opening_balance in opening_balances` loop of `sort_rows`
(csv.py lines 243-275).  The `Nat` argument carries the running
`error_lineno` variable; `.error ()` is the `IndexError` that
`unbalanced_rows[0].lineno` would raise on an empty list. -/
def tryCandidates (rows : List Row) : List ℚ → Nat → Except Unit (List Row × Option Nat)
  | [], errl => .ok (rows, some errl)
  | ob :: obs, _ =>
    let res := placeRows ob rows [] []
    if res.1.length = rows.length then .ok (res.1, none)
    else
      match res.2 with
      | [] => .error ()
      | u0 :: _ => tryCandidates rows obs u0.lineno

/-- `sort_rows` (csv.py lines 219-275): returns the (re)ordered rows together
with `none` on success, or the original rows together with
`some error_lineno` when no candidate opening balance admits a consistent
ordering. -/
def sort_rows (rows : List Row) : Except Unit (List Row × Option Nat) :=
  match rows with
  | [] => .ok ([], none)
  | [r] => .ok ([r], none)
  | _ :: _ :: _ => tryCandidates rows (openingBalances rows) 0

/-- `chainFrom ob rows` holds when the rows form a consistent balance chain
starting from opening balance `ob`:  each row's balance equals the previous
balance plus the row's amount. -/
def chainFrom (ob : ℚ) : List Row → Prop
  | [] => True
  | r :: rs => ob + r.amount = r.balance ∧ chainFrom r.balance rs

instance instDecChainFrom (ob : ℚ) (l : List Row) : Decidable (chainFrom ob l) :=
  match l with
  | [] => .isTrue trivial
  | r :: rs =>
    haveI := instDecChainFrom r.balance rs
    inferInstanceAs (Decidable (ob + r.amount = r.balance ∧ chainFrom r.balance rs))

/-- The balance at the end of a chain: the balance of the last row, or the
opening balance if there is no row. -/
def endBal (ob : ℚ) (l : List Row) : ℚ := (l.getLast?).elim ob Row.balance

/-- Date-homogeneity of the deferred (`unbalanced_rows`) list: every row has
the same date as the list's first element. -/
def dateHomog : List Row → Prop
  | [] => True
  | u0 :: rest => ∀ r ∈ rest, r.date = u0.date

instance instDecDateHomog (l : List Row) : Decidable (dateHomog l) :=
  match l with
  | [] => .isTrue trivial
  | u0 :: rest => inferInstanceAs (Decidable (∀ r ∈ rest, r.date = u0.date))

/-- `candidateWorks rows ob` decides whether the placement attempt for
candidate opening balance `ob` succeeds, i.e. places every row
(the `len(balanced_rows) == len(rows)` test of csv.py line 270). -/
def candidateWorks (rows : List Row) (ob : ℚ) : Bool :=
  (placeRows ob rows [] []).1.length == rows.length

/-- Modelled from the spec: the candidate opening balances as the spec words
them, "the subset of rows sharing the earliest date present", one candidate
`row.balance - row.amount` per such row.  Used to compare the code's
`openingBalances` (a `takewhile` over the leading run) against the spec's
description. -/
def specCandidates (rows : List Row) : List ℚ :=
  match (rows.map Row.date).min? with
  | none => []
  | some d => (rows.filter fun r => r.date = d).map fun r => r.balance - r.amount

/-- Modelled from the spec: "the last known balance strictly before that
boundary" — the last row of `rows` whose date is strictly before `d`. -/
def lastRowBefore (rows : List Row) (d : Int) : Option Row :=
  (rows.filter fun r => r.date < d).getLast?

/-- The importer configuration relevant to `extract`: target account, currency
and the optional `first_day` billing-period anchor. -/
structure Config where
  account : String
  currency : String
  firstDay : Option Int

/-- Modelled from the spec: `beansoup.utils.periods` is not among the source
files; the spec treats it as an external collaborator that, given a date and
the anchor day, returns the enclosing billing-period start and steps a
boundary to the next/previous period.  `extract` is parametrised by these
three functions (with the anchor day already applied). -/
structure PeriodsApi where
  next : Int → Int
  prev : Int → Int
  greatest_start : Int → Int

/-- A ledger entry produced by `extract`: a `data.Transaction` (with its
metadata line set to the row's positional index) or a `data.Balance`
(metadata line 0). -/
inductive LedgerEntry where
  | txn (metaIndex : Nat) (date : Int) (narration : String) (account : String)
      (amount : ℚ) (currency : String)
  | bal (metaIndex : Nat) (date : Int) (account : String) (balance : ℚ) (currency : String)
deriving DecidableEq

/-- Whether a ledger entry is a balance assertion. -/
def LedgerEntry.isBal : LedgerEntry → Bool
  | .txn .. => false
  | .bal .. => true

/-- The transaction-building loop of `extract` (csv.py lines 111-132): one
`Transaction` per row, in order, with the positional index as its metadata
line number. -/
def mkTxns (cfg : Config) (rows : List Row) : List LedgerEntry :=
  rows.enum.map fun p => .txn p.1 p.2.date p.2.description cfg.account p.2.amount cfg.currency

/-- `Importer.create_balance_entry` (csv.py lines 157-164). -/
def mkBalanceEntry (cfg : Config) (date : Int) (balance : ℚ) : LedgerEntry :=
  .bal 0 date cfg.account balance cfg.currency

/-- The `for row in reversed(rows)` monthly-balance loop of `extract`
(csv.py lines 149-153); the list argument is the reversed row list. -/
def periodicBalances (cfg : Config) (api : PeriodsApi) : Int → List Row → List LedgerEntry
  | _, [] => []
  | balance_date, row :: rest =>
    if row.date < balance_date then
      mkBalanceEntry cfg balance_date row.balance
        :: periodicBalances cfg api (api.prev balance_date) rest
    else
      periodicBalances cfg api balance_date rest

/-- `Importer.extract` (csv.py lines 103-155), starting from the parsed rows
(`self.parse(file)` is supplied by derived classes and is out of scope).
`rows[-1]` on an empty list is embedded as `.error ()`, like the other
potential `IndexError`. -/
def extract (cfg : Config) (api : PeriodsApi) (rows0 : List Row) :
    Except Unit (List LedgerEntry) :=
  match sort_rows rows0 with
  | .error e => .error e
  | .ok (rows, error_lineno) =>
    if rows.length = 0 then .ok []
    else
      let new_entries := mkTxns cfg rows
      if error_lineno.isSome then
        .ok new_entries
      else
        match cfg.firstDay with
        | none =>
          match rows.getLast? with
          | none => .error ()
          | some last_row =>
            .ok (new_entries ++ [mkBalanceEntry cfg (last_row.date + 1) last_row.balance])
        | some _ =>
          match rows.getLast? with
          | none => .error ()
          | some last_row =>
            .ok (new_entries ++ periodicBalances cfg api
              (api.next (api.greatest_start last_row.date)) rows.reverse)

/-- An input that is already correctly ordered: its rows form a consistent
balance chain for the opening balance `rows[0].balance - rows[0].amount`
(trivially true of the empty list). -/
def wellOrdered (rows : List Row) : Prop :=
  match rows with
  | [] => True
  | r0 :: rest => chainFrom (r0.balance - r0.amount) (r0 :: rest)

instance instDecWellOrdered (rows : List Row) : Decidable (wellOrdered rows) :=
  match rows with
  | [] => .isTrue trivial
  | r0 :: rest => inferInstanceAs (Decidable (chainFrom (r0.balance - r0.amount) (r0 :: rest)))


/-- The indexed reading of the balance-chain property, exactly as the spec
words it: `ob + rows[0].amount = rows[0].balance` and
`rows[i-1].balance + rows[i].amount = rows[i].balance` for every `i > 0`. -/
def chainIdx (ob : ℚ) (l : List Row) : Prop :=
  (∀ r0, l[0]? = some r0 → ob + r0.amount = r0.balance)
  ∧ ∀ i ri1 ri, l[i]? = some ri1 → l[i + 1]? = some ri
      → ri1.balance + ri.amount = ri.balance

/-- Modelled from the spec: the period-boundary utility is an external
collaborator; `PeriodsContract` is its contract — `isB` picks out the period
boundaries, which form a strictly increasing bi-infinite chain stepped by
`next`/`prev`, and `greatest_start d` is the greatest boundary not
exceeding `d`. -/
structure PeriodsContract (api : PeriodsApi) (isB : Int → Prop) : Prop where
  bgs : ∀ d, isB (api.greatest_start d)
  bnext : ∀ b, isB b → isB (api.next b)
  bprev : ∀ b, isB b → isB (api.prev b)
  next_prev : ∀ b, api.next (api.prev b) = b
  prev_next : ∀ b, api.prev (api.next b) = b
  lt_next : ∀ b, b < api.next b
  prev_mono : ∀ b c, b ≤ c → api.prev b ≤ api.prev c
  gs_le : ∀ d, api.greatest_start d ≤ d
  lt_next_gs : ∀ d, d < api.next (api.greatest_start d)
  gs_eq : ∀ b d, isB b → b ≤ d → d < api.next b → api.greatest_start d = b

/-- A concrete instantiation of the period utility: uniform thirty-day
billing periods anchored at day 1, with boundaries 1, 31, 61, 91, ... -/
def api30 : PeriodsApi :=
  ⟨fun b => b + 30, fun b => b - 30, fun d => d - (d - 1) % 30⟩

/-- The boundaries of `api30`. -/
def isB30 (b : Int) : Prop := b % 30 = 1

/-! ## Unfolding equations for the placement loop -/

theorem placeRows_nil (prev : ℚ) (u b : List Row) : placeRows prev [] u b = (b, u) := by
  rw [placeRows.eq_def]

theorem placeRows_accept (prev : ℚ) (row : Row) (rest u b : List Row)
    (h : prev + row.amount = row.balance) :
    placeRows prev (row :: rest) u b
      = placeRows row.balance (u.reverse ++ rest) [] (b ++ [row]) := by
  rw [placeRows.eq_def]
  simp [h]

theorem placeRows_break (prev : ℚ) (row u0 : Row) (rest urest b : List Row)
    (h : ¬ prev + row.amount = row.balance) (hd : u0.date ≠ row.date) :
    placeRows prev (row :: rest) (u0 :: urest) b = (b, u0 :: urest) := by
  rw [placeRows.eq_def]
  simp [h, hd]

theorem placeRows_defer (prev : ℚ) (row u0 : Row) (rest urest b : List Row)
    (h : ¬ prev + row.amount = row.balance) (hd : u0.date = row.date) :
    placeRows prev (row :: rest) (u0 :: urest) b
      = placeRows prev rest ((u0 :: urest) ++ [row]) b := by
  rw [placeRows.eq_def]
  simp [h, hd]

theorem placeRows_defer_nil (prev : ℚ) (row : Row) (rest b : List Row)
    (h : ¬ prev + row.amount = row.balance) :
    placeRows prev (row :: rest) [] b = placeRows prev rest [row] b := by
  rw [placeRows.eq_def]
  simp [h]

/-! ## Invariants of the placement loop -/

/-- No row is duplicated or fabricated by the loop: element counts of the
returned `(balanced, unbalanced)` pair are bounded by those of the initial
`balanced ++ unbalanced ++ stack` (the `break` path drops the row popped
last, hence the inequality). -/
theorem placeRows_count (prev : ℚ) (stack unbalanced balanced : List Row) (a : Row) :
    (placeRows prev stack unbalanced balanced).1.count a
        + (placeRows prev stack unbalanced balanced).2.count a
      ≤ balanced.count a + unbalanced.count a + stack.count a := by
  induction prev, stack, unbalanced, balanced using placeRows.induct with
  | case1 prev u b =>
    rw [placeRows_nil]
    simp
  | case2 prev u b row rest h ih =>
    rw [placeRows_accept _ _ _ _ _ h]
    refine le_trans ih ?_
    simp [List.count_append, List.count_cons, List.count_reverse]
    split <;> omega
  | case3 prev b row rest h u0 urest hd =>
    rw [placeRows_break _ _ _ _ _ _ h hd]
    simp [List.count_cons]
  | case4 prev b row rest h u0 urest hd ih =>
    rw [placeRows_defer _ _ _ _ _ _ h (not_ne_iff.mp hd)]
    refine le_trans ih ?_
    simp [List.count_append, List.count_cons]
    split <;> omega
  | case5 prev b row rest h ih =>
    rw [placeRows_defer_nil _ _ _ _ h]
    refine le_trans ih ?_
    simp [List.count_append, List.count_cons]
    split <;> omega

/-- If the loop placed every row (the success test of csv.py line 270),
the final deferred list is empty. -/
theorem placeRows_complete (prev : ℚ) (stack unbalanced balanced : List Row)
    (h : (placeRows prev stack unbalanced balanced).1.length
      = balanced.length + unbalanced.length + stack.length) :
    (placeRows prev stack unbalanced balanced).2 = [] := by
  induction prev, stack, unbalanced, balanced using placeRows.induct with
  | case1 prev u b =>
    rw [placeRows_nil] at h ⊢
    change b.length = _ at h
    change u = []
    simp only [List.length_nil] at h
    exact List.eq_nil_of_length_eq_zero (by omega)
  | case2 prev u b row rest hacc ih =>
    rw [placeRows_accept _ _ _ _ _ hacc] at h ⊢
    exact ih (by simp at h ⊢; omega)
  | case3 prev b row rest hacc u0 urest hd =>
    rw [placeRows_break _ _ _ _ _ _ hacc hd] at h
    simp at h
    omega
  | case4 prev b row rest hacc u0 urest hd ih =>
    rw [placeRows_defer _ _ _ _ _ _ hacc (not_ne_iff.mp hd)] at h ⊢
    exact ih (by simp at h ⊢; omega)
  | case5 prev b row rest hacc ih =>
    rw [placeRows_defer_nil _ _ _ _ hacc] at h ⊢
    exact ih (by simp at h ⊢; omega)

/-- If the loop did not place every row, the final deferred list is
non-empty (so `unbalanced_rows[0]` at csv.py line 272 cannot raise). -/
theorem placeRows_fail_ne_nil (prev : ℚ) (stack unbalanced balanced : List Row)
    (h : (placeRows prev stack unbalanced balanced).1.length
      ≠ balanced.length + unbalanced.length + stack.length) :
    (placeRows prev stack unbalanced balanced).2 ≠ [] := by
  induction prev, stack, unbalanced, balanced using placeRows.induct with
  | case1 prev u b =>
    rw [placeRows_nil] at h ⊢
    simp at h ⊢
    intro hu
    subst hu
    simp at h
  | case2 prev u b row rest hacc ih =>
    rw [placeRows_accept _ _ _ _ _ hacc] at h ⊢
    exact ih (by simp at h ⊢; omega)
  | case3 prev b row rest hacc u0 urest hd =>
    rw [placeRows_break _ _ _ _ _ _ hacc hd]
    simp
  | case4 prev b row rest hacc u0 urest hd ih =>
    rw [placeRows_defer _ _ _ _ _ _ hacc (not_ne_iff.mp hd)] at h ⊢
    exact ih (by simp at h ⊢; omega)
  | case5 prev b row rest hacc ih =>
    rw [placeRows_defer_nil _ _ _ _ hacc] at h ⊢
    exact ih (by simp at h ⊢; omega)

/-- The deferred list stays date-homogeneous throughout the loop: a row is
only deferred when the deferred list is empty or already holds rows of the
same date (csv.py lines 264-269). -/
theorem placeRows_dateHomog (prev : ℚ) (stack unbalanced balanced : List Row)
    (hu : dateHomog unbalanced) :
    dateHomog (placeRows prev stack unbalanced balanced).2 := by
  induction prev, stack, unbalanced, balanced using placeRows.induct with
  | case1 prev u b =>
    rw [placeRows_nil]
    exact hu
  | case2 prev u b row rest hacc ih =>
    rw [placeRows_accept _ _ _ _ _ hacc]
    exact ih trivial
  | case3 prev b row rest hacc u0 urest hd =>
    rw [placeRows_break _ _ _ _ _ _ hacc hd]
    exact hu
  | case4 prev b row rest hacc u0 urest hd ih =>
    rw [placeRows_defer _ _ _ _ _ _ hacc (not_ne_iff.mp hd)]
    refine ih ?_
    intro r hr
    rcases List.mem_append.mp hr with hr | hr
    · exact hu r hr
    · simp at hr
      subst hr
      exact (not_ne_iff.mp hd).symm
  | case5 prev b row rest hacc ih =>
    rw [placeRows_defer_nil _ _ _ _ hacc]
    refine ih ?_
    intro r hr
    simp at hr

theorem endBal_cons (ob : ℚ) (x : Row) (xs : List Row) :
    endBal ob (x :: xs) = endBal x.balance xs := by
  match xs with
  | [] => simp [endBal]
  | y :: ys =>
    simp only [endBal, List.getLast?_cons_cons]
    cases hc : (y :: ys).getLast? with
    | none =>
      have hne : (y :: ys) ≠ [] := by simp
      rw [← List.getLast?_isSome, hc] at hne
      simp at hne
    | some r => simp

theorem endBal_concat (ob : ℚ) (l : List Row) (r : Row) :
    endBal ob (l ++ [r]) = r.balance := by
  simp [endBal]

theorem chainFrom_concat (ob : ℚ) (b : List Row) (r : Row)
    (hb : chainFrom ob b) (hr : endBal ob b + r.amount = r.balance) :
    chainFrom ob (b ++ [r]) := by
  induction b generalizing ob with
  | nil =>
    simp [endBal] at hr
    exact ⟨hr, trivial⟩
  | cons x xs ih =>
    rw [endBal_cons] at hr
    exact ⟨hb.1, ih x.balance hb.2 hr⟩

/-- The accepted prefix stays a consistent balance chain: accepting a row
(csv.py lines 254-257) extends the chain by exactly the balance equation. -/
theorem placeRows_chain (ob prev : ℚ) (stack unbalanced balanced : List Row)
    (hb : chainFrom ob balanced) (he : endBal ob balanced = prev) :
    chainFrom ob (placeRows prev stack unbalanced balanced).1 := by
  induction prev, stack, unbalanced, balanced using placeRows.induct with
  | case1 prev u b =>
    rw [placeRows_nil]
    exact hb
  | case2 prev u b row rest hacc ih =>
    rw [placeRows_accept _ _ _ _ _ hacc]
    refine ih (chainFrom_concat _ _ _ hb ?_) (endBal_concat _ _ _)
    rw [he]
    exact hacc
  | case3 prev b row rest hacc u0 urest hd =>
    rw [placeRows_break _ _ _ _ _ _ hacc hd]
    exact hb
  | case4 prev b row rest hacc u0 urest hd ih =>
    rw [placeRows_defer _ _ _ _ _ _ hacc (not_ne_iff.mp hd)]
    exact ih hb he
  | case5 prev b row rest hacc ih =>
    rw [placeRows_defer_nil _ _ _ _ hacc]
    exact ih hb he

/-- On an input that is already a consistent chain for `prev`, the loop
accepts every row in order without ever deferring. -/
theorem placeRows_of_chain (prev : ℚ) (stack balanced : List Row)
    (hc : chainFrom prev stack) :
    placeRows prev stack [] balanced = (balanced ++ stack, []) := by
  induction stack generalizing prev balanced with
  | nil =>
    rw [placeRows_nil]
    simp
  | cons r rest ih =>
    rw [placeRows_accept _ _ _ _ _ hc.1]
    simp only [List.reverse_nil, List.nil_append]
    rw [ih r.balance _ hc.2]
    simp

/-! ## Lemmas about the candidate loop -/

/-- The candidate loop never hits the `IndexError` path: it always returns. -/
theorem tryCandidates_ok (rows : List Row) (obs : List ℚ) (errl : Nat) :
    ∃ p, tryCandidates rows obs errl = .ok p := by
  induction obs generalizing errl with
  | nil => exact ⟨(rows, some errl), rfl⟩
  | cons ob obs ih =>
    by_cases hok : (placeRows ob rows [] []).1.length = rows.length
    · exact ⟨((placeRows ob rows [] []).1, none), by simp [tryCandidates, hok]⟩
    · have hne : (placeRows ob rows [] []).2 ≠ [] := by
        apply placeRows_fail_ne_nil
        simpa using hok
      obtain ⟨u0, urest, hres⟩ := List.exists_cons_of_ne_nil hne
      obtain ⟨p, hp⟩ := ih u0.lineno
      refine ⟨p, ?_⟩
      simp only [tryCandidates, hok, if_false, hres]
      exact hp

/-- If some candidate succeeds, the loop returns the ordering produced by the
first succeeding candidate, with no error. -/
theorem tryCandidates_find (rows : List Row) (obs : List ℚ) (ob : ℚ) (errl : Nat)
    (h : obs.find? (candidateWorks rows) = some ob) :
    tryCandidates rows obs errl = .ok ((placeRows ob rows [] []).1, none) := by
  induction obs generalizing errl with
  | nil => simp at h
  | cons o os ih =>
    by_cases hw : candidateWorks rows o
    · rw [List.find?_cons_of_pos _ hw] at h
      have hob : o = ob := by simpa using h
      subst hob
      have hok : (placeRows o rows [] []).1.length = rows.length := by
        simpa [candidateWorks] using hw
      simp [tryCandidates, hok]
    · rw [List.find?_cons_of_neg _ hw] at h
      have hok : ¬ (placeRows o rows [] []).1.length = rows.length := by
        simpa [candidateWorks] using hw
      have hne : (placeRows o rows [] []).2 ≠ [] := by
        apply placeRows_fail_ne_nil
        simpa using hok
      obtain ⟨u0, urest, hres⟩ := List.exists_cons_of_ne_nil hne
      simp only [tryCandidates, hok, if_false, hres]
      exact ih _ h

/-- If every candidate fails, the loop returns the original rows and the line
number of the first deferred row of the last candidate tried. -/
theorem tryCandidates_allfail (rows : List Row) (obs : List ℚ) (obL : ℚ)
    (hfail : ∀ ob ∈ obs, candidateWorks rows ob = false)
    (hlast : obs.getLast? = some obL) (errl : Nat) :
    ∃ u0 urest, (placeRows obL rows [] []).2 = u0 :: urest
      ∧ tryCandidates rows obs errl = .ok (rows, some u0.lineno) := by
  induction obs generalizing errl with
  | nil => simp at hlast
  | cons o os ih =>
    have hwo : candidateWorks rows o = false := hfail o (by simp)
    have hok : ¬ (placeRows o rows [] []).1.length = rows.length := by
      simpa [candidateWorks] using hwo
    have hne : (placeRows o rows [] []).2 ≠ [] := by
      apply placeRows_fail_ne_nil
      simpa using hok
    obtain ⟨u0, urest, hres⟩ := List.exists_cons_of_ne_nil hne
    cases os with
    | nil =>
      have hobL : o = obL := by simpa using hlast
      subst hobL
      exact ⟨u0, urest, hres, by simp only [tryCandidates, hok, if_false, hres]⟩
    | cons o1 os1 =>
      have hlast1 : (o1 :: os1).getLast? = some obL := by
        rwa [List.getLast?_cons_cons] at hlast
      obtain ⟨v0, vrest, hv, hrun⟩ :=
        ih (fun x hx => hfail x (List.mem_cons_of_mem _ hx)) hlast1 u0.lineno
      refine ⟨v0, vrest, hv, ?_⟩
      simp only [tryCandidates, hok, if_false, hres]
      exact hrun

/-- Whatever the loop returns is a permutation of the input rows. -/
theorem tryCandidates_perm (rows : List Row) (obs : List ℚ) (errl : Nat)
    (ordered : List Row) (err : Option Nat)
    (h : tryCandidates rows obs errl = .ok (ordered, err)) :
    ordered.Perm rows := by
  induction obs generalizing errl with
  | nil =>
    simp only [tryCandidates] at h
    obtain ⟨h1, h2⟩ := by simpa using h
    subst h1
    exact List.Perm.refl _
  | cons ob os ih =>
    by_cases hok : (placeRows ob rows [] []).1.length = rows.length
    · simp only [tryCandidates, hok, if_true] at h
      obtain ⟨h1, h2⟩ := by simpa using h
      subst h1
      have hsub : List.Subperm (placeRows ob rows [] []).1 rows := by
        rw [List.subperm_ext_iff]
        intro x hx
        have := placeRows_count ob rows [] [] x
        simpa using Nat.le_trans (Nat.le_add_right _ _) this
      exact hsub.perm_of_length_le (by omega)
    · have hne : (placeRows ob rows [] []).2 ≠ [] := by
        apply placeRows_fail_ne_nil
        simpa using hok
      obtain ⟨u0, urest, hres⟩ := List.exists_cons_of_ne_nil hne
      simp only [tryCandidates, hok, if_false, hres] at h
      exact ih _ h

/-- A successful loop result is a balance chain for the candidate that
produced it, which belongs to the candidate list. -/
theorem tryCandidates_chain (rows : List Row) (obs : List ℚ) (errl : Nat)
    (ordered : List Row)
    (h : tryCandidates rows obs errl = .ok (ordered, none)) :
    ∃ ob ∈ obs, chainFrom ob ordered := by
  induction obs generalizing errl with
  | nil => simp [tryCandidates] at h
  | cons ob os ih =>
    by_cases hok : (placeRows ob rows [] []).1.length = rows.length
    · simp only [tryCandidates, hok, if_true] at h
      have h1 : (placeRows ob rows [] []).1 = ordered := by simpa using h
      subst h1
      exact ⟨ob, by simp, placeRows_chain ob ob rows [] [] trivial rfl⟩
    · have hne : (placeRows ob rows [] []).2 ≠ [] := by
        apply placeRows_fail_ne_nil
        simpa using hok
      obtain ⟨u0, urest, hres⟩ := List.exists_cons_of_ne_nil hne
      simp only [tryCandidates, hok, if_false, hres] at h
      obtain ⟨o, ho, hc⟩ := ih _ h
      exact ⟨o, List.mem_cons_of_mem _ ho, hc⟩

/-! ## Claims about the reconciliation engine -/

/-- C1: if `sort_rows` returns `(ordered, None)` on a non-empty list, then some
candidate opening balance `ob` among the enumerated ones
(`row.balance - row.amount` for the leading earliest-date rows) satisfies
`ob + ordered[0].amount = ordered[0].balance` and
`ordered[i-1].balance + ordered[i].amount = ordered[i].balance` for `i > 0`,
with exact arithmetic — stated both recursively (`chainFrom`) and in the
claim's indexed form (`chainIdx`). -/
theorem chainFrom_chainIdx (ob : ℚ) (l : List Row) (h : chainFrom ob l) :
    chainIdx ob l := by
  induction l generalizing ob with
  | nil =>
    constructor
    · intro r0 h0
      simp at h0
    · intro i ri1 ri h1 h2
      simp at h1
  | cons r rs ih =>
    obtain ⟨h1, h2⟩ := h
    obtain ⟨iha, ihb⟩ := ih r.balance h2
    constructor
    · intro r0 h0
      have e0 : r = r0 := by simpa using h0
      rw [← e0]
      exact h1
    · intro i ri1 ri hi1 hi2
      match i with
      | 0 =>
        have e1 : r = ri1 := by simpa using hi1
        rw [List.getElem?_cons_succ] at hi2
        rw [← e1]
        exact iha ri hi2
      | j + 1 =>
        rw [List.getElem?_cons_succ] at hi1 hi2
        exact ihb j ri1 ri hi1 hi2

theorem C1_success_balance_chain (rows ordered : List Row)
    (h : sort_rows rows = .ok (ordered, none)) (hne : rows ≠ []) :
    ∃ ob ∈ openingBalances rows, chainFrom ob ordered ∧ chainIdx ob ordered := by
  have hmain : ∃ ob ∈ openingBalances rows, chainFrom ob ordered := by
    match rows with
    | [] => exact absurd rfl hne
    | [r] =>
      have hord : [r] = ordered := by simpa [sort_rows] using h
      subst hord
      refine ⟨r.balance - r.amount, ?_, ?_⟩
      · simp [openingBalances]
      · exact ⟨by ring, trivial⟩
    | r0 :: r1 :: rest =>
      exact tryCandidates_chain _ _ _ _ (by simpa [sort_rows] using h)
  obtain ⟨ob, hmem, hcf⟩ := hmain
  exact ⟨ob, hmem, hcf, chainFrom_chainIdx ob ordered hcf⟩

theorem C1_success_balance_chain_witness :
    sort_rows [⟨1, 3, "a", 2, 8⟩, ⟨2, 3, "b", -4, 6⟩]
        = .ok ([⟨2, 3, "b", -4, 6⟩, ⟨1, 3, "a", 2, 8⟩], none)
    ∧ ∃ ob ∈ openingBalances [⟨1, 3, "a", 2, 8⟩, ⟨2, 3, "b", -4, 6⟩],
        chainFrom ob [⟨2, 3, "b", -4, 6⟩, ⟨1, 3, "a", 2, 8⟩]
        ∧ chainIdx ob [⟨2, 3, "b", -4, 6⟩, ⟨1, 3, "a", 2, 8⟩] := by
  have hs : sort_rows [⟨1, 3, "a", 2, 8⟩, ⟨2, 3, "b", -4, 6⟩]
      = .ok ([⟨2, 3, "b", -4, 6⟩, ⟨1, 3, "a", 2, 8⟩], none) := by
    norm_num [sort_rows, openingBalances, tryCandidates, placeRows.eq_def]
  exact ⟨hs, C1_success_balance_chain _ _ hs (by simp)⟩

/-- C2: every sequence returned by `sort_rows` (with or without an error
line) is a permutation of the input rows: nothing is dropped, duplicated or
fabricated. -/
theorem C2_result_is_permutation (rows ordered : List Row) (err : Option Nat)
    (h : sort_rows rows = .ok (ordered, err)) :
    ordered.Perm rows := by
  match rows with
  | [] =>
    obtain ⟨h1, h2⟩ : ([] : List Row) = ordered ∧ (none : Option Nat) = err := by
      simpa [sort_rows] using h
    subst h1
    exact List.Perm.refl _
  | [r] =>
    obtain ⟨h1, h2⟩ : [r] = ordered ∧ (none : Option Nat) = err := by
      simpa [sort_rows] using h
    subst h1
    exact List.Perm.refl _
  | r0 :: r1 :: rest =>
    exact tryCandidates_perm _ _ _ _ _ (by simpa [sort_rows] using h)

theorem C2_result_is_permutation_witness :
    sort_rows [⟨1, 3, "a", 2, 8⟩, ⟨2, 4, "b", 1, 100⟩]
        = .ok ([⟨1, 3, "a", 2, 8⟩, ⟨2, 4, "b", 1, 100⟩], some 2)
    ∧ List.Perm [⟨1, 3, "a", 2, 8⟩, ⟨2, 4, "b", 1, 100⟩]
        ([⟨1, 3, "a", 2, 8⟩, ⟨2, 4, "b", 1, 100⟩] : List Row) := by
  have hs : sort_rows [⟨1, 3, "a", 2, 8⟩, ⟨2, 4, "b", 1, 100⟩]
      = .ok ([⟨1, 3, "a", 2, 8⟩, ⟨2, 4, "b", 1, 100⟩], some 2) := by
    norm_num [sort_rows, openingBalances, tryCandidates, placeRows.eq_def]
  exact ⟨hs, C2_result_is_permutation _ _ _ hs⟩

/-- C3: on a list of two or more rows where no candidate opening balance
places every row, `sort_rows` returns the input list unchanged together with
`some` of the line number of the first deferred row under the last candidate
tried. -/
theorem C3_total_failure (rows : List Row) (obL : ℚ) (u0 : Row) (urest : List Row)
    (hlen : 2 ≤ rows.length)
    (hfail : ∀ ob ∈ openingBalances rows, candidateWorks rows ob = false)
    (hlast : (openingBalances rows).getLast? = some obL)
    (hu : (placeRows obL rows [] []).2 = u0 :: urest) :
    sort_rows rows = .ok (rows, some u0.lineno) := by
  match rows with
  | [] => simp at hlen
  | [r] => simp at hlen
  | r0 :: r1 :: rest =>
    obtain ⟨v0, vrest, hv, hrun⟩ := tryCandidates_allfail (r0 :: r1 :: rest) _ obL hfail hlast 0
    rw [hu] at hv
    injection hv with e1 e2
    subst e1
    simpa [sort_rows] using hrun

theorem C3_total_failure_witness :
    (2 ≤ ([⟨1, 3, "a", 2, 8⟩, ⟨2, 3, "b", 1, 100⟩] : List Row).length)
    ∧ (∀ ob ∈ openingBalances [⟨1, 3, "a", 2, 8⟩, ⟨2, 3, "b", 1, 100⟩],
        candidateWorks [⟨1, 3, "a", 2, 8⟩, ⟨2, 3, "b", 1, 100⟩] ob = false)
    ∧ sort_rows [⟨1, 3, "a", 2, 8⟩, ⟨2, 3, "b", 1, 100⟩]
        = .ok ([⟨1, 3, "a", 2, 8⟩, ⟨2, 3, "b", 1, 100⟩], some 1) := by
  have h1 : (2 ≤ ([⟨1, 3, "a", 2, 8⟩, ⟨2, 3, "b", 1, 100⟩] : List Row).length) := by
    norm_num
  have h2 : ∀ ob ∈ openingBalances [⟨1, 3, "a", 2, 8⟩, ⟨2, 3, "b", 1, 100⟩],
      candidateWorks [⟨1, 3, "a", 2, 8⟩, ⟨2, 3, "b", 1, 100⟩] ob = false := by
    intro ob hob
    simp [openingBalances] at hob
    rcases hob with hob | hob <;>
      rw [hob] <;> norm_num [candidateWorks, placeRows.eq_def]
  have h3 : (openingBalances [⟨1, 3, "a", 2, 8⟩, ⟨2, 3, "b", 1, 100⟩]).getLast?
      = some ((100 : ℚ) - 1) := by
    norm_num [openingBalances]
  have h4 : (placeRows ((100 : ℚ) - 1) [⟨1, 3, "a", 2, 8⟩, ⟨2, 3, "b", 1, 100⟩] [] []).2
      = ⟨1, 3, "a", 2, 8⟩ :: [] := by
    norm_num [placeRows.eq_def]
  exact ⟨h1, h2, C3_total_failure _ _ _ _ h1 h2 h3 h4⟩


/-- C8: `sort_rows` is the identity (with a `None` error) on every input that
is already correctly ordered, including the empty and singleton inputs. -/
theorem C8_idempotent_on_ordered (rows : List Row) (hw : wellOrdered rows) :
    sort_rows rows = .ok (rows, none) := by
  match rows with
  | [] => rfl
  | [r] => rfl
  | r0 :: r1 :: rest =>
    have hc : chainFrom (r0.balance - r0.amount) (r0 :: r1 :: rest) := hw
    have hplace := placeRows_of_chain (r0.balance - r0.amount) (r0 :: r1 :: rest) [] hc
    have htl : openingBalances (r0 :: r1 :: rest)
        = (r0.balance - r0.amount)
          :: ((r1 :: rest).takeWhile (fun r => r.date = r0.date)).map
            (fun r => r.balance - r.amount) := by
      simp [openingBalances]
    show tryCandidates (r0 :: r1 :: rest) (openingBalances (r0 :: r1 :: rest)) 0 = _
    rw [htl]
    simp only [tryCandidates, hplace, List.nil_append]
    simp

theorem C8_idempotent_on_ordered_witness :
    wellOrdered [⟨1, 3, "a", 2, 8⟩, ⟨2, 3, "b", -4, 4⟩]
    ∧ sort_rows [⟨1, 3, "a", 2, 8⟩, ⟨2, 3, "b", -4, 4⟩]
        = .ok ([⟨1, 3, "a", 2, 8⟩, ⟨2, 3, "b", -4, 4⟩], none) := by
  have hw : wellOrdered [⟨1, 3, "a", 2, 8⟩, ⟨2, 3, "b", -4, 4⟩] := by
    simp only [wellOrdered, chainFrom]
    norm_num
  exact ⟨hw, C8_idempotent_on_ordered _ hw⟩

/-- C9: `sort_rows` is total — the placement loop terminates (it is a
well-founded recursion in this embedding) and the function returns an
ordinary `(sequence, diagnostic)` pair on every input; the `IndexError`
path (`.error`) is unreachable. -/
theorem C9_sort_rows_total (rows : List Row) : ∃ p, sort_rows rows = .ok p := by
  match rows with
  | [] => exact ⟨_, rfl⟩
  | [r] => exact ⟨_, rfl⟩
  | r0 :: r1 :: rest => exact tryCandidates_ok (r0 :: r1 :: rest) _ 0

/-- C10: if the deferred list is date-homogeneous then it stays so at loop
exit, and whenever the loop ends without having placed every row the
deferred list is non-empty, so `unbalanced_rows[0]` is defined. -/
theorem C10_deferred_list_invariant (prev : ℚ) (stack unbalanced balanced : List Row)
    (hu : dateHomog unbalanced) :
    dateHomog (placeRows prev stack unbalanced balanced).2
    ∧ ((placeRows prev stack unbalanced balanced).1.length
        ≠ balanced.length + unbalanced.length + stack.length
      → (placeRows prev stack unbalanced balanced).2 ≠ []) :=
  ⟨placeRows_dateHomog _ _ _ _ hu, placeRows_fail_ne_nil _ _ _ _⟩

theorem C10_deferred_list_invariant_witness :
    dateHomog [⟨1, 3, "a", 2, 8⟩]
    ∧ (dateHomog (placeRows 0 [⟨2, 4, "b", 1, 9⟩] [⟨1, 3, "a", 2, 8⟩] []).2
      ∧ ((placeRows 0 [⟨2, 4, "b", 1, 9⟩] [⟨1, 3, "a", 2, 8⟩] []).1.length
          ≠ ([] : List Row).length + ([⟨1, 3, "a", 2, 8⟩] : List Row).length
            + ([⟨2, 4, "b", 1, 9⟩] : List Row).length
        → (placeRows 0 [⟨2, 4, "b", 1, 9⟩] [⟨1, 3, "a", 2, 8⟩] []).2 ≠ [])) := by
  have hu : dateHomog [⟨1, 3, "a", 2, 8⟩] := by
    intro r hr
    simp at hr
  exact ⟨hu, C10_deferred_list_invariant 0 _ _ [] hu⟩

/-! ## The candidate set under a date-sorted input -/

theorem takeWhile_eq_filter_of_sorted (d : Int) (l : List Row)
    (hlb : ∀ r ∈ l, d ≤ r.date)
    (hs : List.Sorted (fun a b : Row => a.date ≤ b.date) l) :
    l.takeWhile (fun r => r.date = d) = l.filter (fun r => r.date = d) := by
  induction l with
  | nil => rfl
  | cons x xs ih =>
    by_cases hx : x.date = d
    · rw [List.takeWhile_cons_of_pos (by simp [hx]), List.filter_cons_of_pos (by simp [hx])]
      rw [ih (fun r hr => hlb r (List.mem_cons_of_mem _ hr)) hs.of_cons]
    · rw [List.takeWhile_cons_of_neg (by simp [hx]), List.filter_cons_of_neg (by simp [hx])]
      have hnil : xs.filter (fun r => r.date = d) = [] := by
        rw [List.filter_eq_nil_iff]
        intro r hr
        simp only [decide_eq_true_eq]
        intro hrd
        have h1 : d ≤ x.date := hlb x (by simp)
        have h2 : x.date ≤ r.date := (List.pairwise_cons.mp hs).1 r hr
        exact hx (le_antisymm (by omega) h1)
      rw [hnil]

theorem openingBalances_eq_specCandidates (rows : List Row)
    (hs : List.Sorted (fun a b : Row => a.date ≤ b.date) rows) :
    openingBalances rows = specCandidates rows := by
  match rows with
  | [] => rfl
  | r0 :: rest =>
    have hlb : ∀ r ∈ r0 :: rest, r0.date ≤ r.date := by
      intro r hr
      rcases List.mem_cons.mp hr with hr | hr
      · exact le_of_eq (by rw [hr])
      · exact (List.pairwise_cons.mp hs).1 r hr
    have hmin : ((r0 :: rest).map Row.date).min? = some r0.date := by
      haveI : Std.Antisymm (fun x1 x2 : Int => x1 ≤ x2) :=
        ⟨fun h1 h2 => le_antisymm h1 h2⟩
      rw [List.min?_eq_some_iff (le_refl) (fun a b => min_choice a b)
        (fun a b c => le_min_iff)]
      constructor
      · simp
      · intro b hb
        obtain ⟨r, hr, hrb⟩ := List.mem_map.mp hb
        exact hrb ▸ hlb r hr
    rw [specCandidates, hmin]
    show openingBalances (r0 :: rest) = _
    rw [openingBalances]
    rw [takeWhile_eq_filter_of_sorted r0.date _ hlb hs]

/-- C6: for a date-sorted list of two or more rows, the candidate opening
balances enumerated by `sort_rows` are exactly `row.balance - row.amount`
for the rows sharing the earliest date, in input order (the code's
`openingBalances` equals the spec's `specCandidates`); and when `ob` is the
first candidate in that order whose placement succeeds, `sort_rows` returns
the ordering produced by `ob`. -/
theorem C6_candidate_enumeration (rows : List Row) (ob : ℚ)
    (hlen : 2 ≤ rows.length)
    (hs : List.Sorted (fun a b : Row => a.date ≤ b.date) rows)
    (hfind : (openingBalances rows).find? (candidateWorks rows) = some ob) :
    openingBalances rows = specCandidates rows
    ∧ sort_rows rows = .ok ((placeRows ob rows [] []).1, none) := by
  refine ⟨openingBalances_eq_specCandidates rows hs, ?_⟩
  match rows with
  | [] => simp at hlen
  | [r] => simp at hlen
  | r0 :: r1 :: rest =>
    simpa [sort_rows] using tryCandidates_find (r0 :: r1 :: rest) _ ob 0 hfind

theorem C6_candidate_enumeration_witness :
    (2 ≤ ([⟨1, 3, "a", 2, 8⟩, ⟨2, 3, "b", -4, 6⟩] : List Row).length)
    ∧ List.Sorted (fun a b : Row => a.date ≤ b.date) [⟨1, 3, "a", 2, 8⟩, ⟨2, 3, "b", -4, 6⟩]
    ∧ (openingBalances [⟨1, 3, "a", 2, 8⟩, ⟨2, 3, "b", -4, 6⟩]).find?
        (candidateWorks [⟨1, 3, "a", 2, 8⟩, ⟨2, 3, "b", -4, 6⟩]) = some 10
    ∧ (openingBalances [⟨1, 3, "a", 2, 8⟩, ⟨2, 3, "b", -4, 6⟩]
        = specCandidates [⟨1, 3, "a", 2, 8⟩, ⟨2, 3, "b", -4, 6⟩]
      ∧ sort_rows [⟨1, 3, "a", 2, 8⟩, ⟨2, 3, "b", -4, 6⟩]
        = .ok ((placeRows 10 [⟨1, 3, "a", 2, 8⟩, ⟨2, 3, "b", -4, 6⟩] [] []).1, none)) := by
  have h1 : (2 ≤ ([⟨1, 3, "a", 2, 8⟩, ⟨2, 3, "b", -4, 6⟩] : List Row).length) := by norm_num
  have h2 : List.Sorted (fun a b : Row => a.date ≤ b.date)
      [⟨1, 3, "a", 2, 8⟩, ⟨2, 3, "b", -4, 6⟩] := by
    simp [List.sorted_cons]
  have h3 : (openingBalances [⟨1, 3, "a", 2, 8⟩, ⟨2, 3, "b", -4, 6⟩]).find?
      (candidateWorks [⟨1, 3, "a", 2, 8⟩, ⟨2, 3, "b", -4, 6⟩]) = some 10 := by
    norm_num [openingBalances, candidateWorks, List.find?, placeRows.eq_def]
    rfl
  exact ⟨h1, h2, h3, C6_candidate_enumeration _ _ h1 h2 h3⟩

/-! ## Lemmas about the extraction policy -/

/-- Restatement of C2's permutation fact as a reusable helper. -/
theorem sort_rows_perm (rows ordered : List Row) (err : Option Nat)
    (h : sort_rows rows = .ok (ordered, err)) :
    ordered.Perm rows := by
  match rows with
  | [] =>
    obtain ⟨h1, h2⟩ : ([] : List Row) = ordered ∧ (none : Option Nat) = err := by
      simpa [sort_rows] using h
    subst h1
    exact List.Perm.refl _
  | [r] =>
    obtain ⟨h1, h2⟩ : [r] = ordered ∧ (none : Option Nat) = err := by
      simpa [sort_rows] using h
    subst h1
    exact List.Perm.refl _
  | r0 :: r1 :: rest =>
    exact tryCandidates_perm _ _ _ _ _ (by simpa [sort_rows] using h)

theorem periodicBalances_isBal (cfg : Config) (api : PeriodsApi) (bd : Int)
    (l : List Row) : ∀ e ∈ periodicBalances cfg api bd l, e.isBal = true := by
  induction l generalizing bd with
  | nil =>
    intro e he
    simp [periodicBalances] at he
  | cons r rest ih =>
    intro e he
    rw [periodicBalances] at he
    by_cases hlt : r.date < bd
    · rw [if_pos hlt] at he
      rcases List.mem_cons.mp he with he | he
      · rw [he]
        rfl
      · exact ih _ e he
    · rw [if_neg hlt] at he
      exact ih _ e he

theorem getLast_of_ne_nil (l : List Row) (hne : l ≠ []) :
    ∃ last, l.getLast? = some last := by
  cases hgl : l.getLast? with
  | none => exact absurd (List.getLast?_eq_none_iff.mp hgl) hne
  | some last => exact ⟨last, rfl⟩

/-- C7: `extract` always emits one `Transaction` per reconciled row, in the
reconciled order, as a prefix of its output; the remaining entries are all
balance assertions, and when `sort_rows` reports a failure line the output
is exactly the transactions, with no balance assertion. -/
theorem C7_txns_in_order_no_balance_on_failure (cfg : Config) (api : PeriodsApi)
    (rows0 ordered : List Row) (err : Option Nat)
    (h : sort_rows rows0 = .ok (ordered, err)) :
    ∃ tail, extract cfg api rows0 = .ok (mkTxns cfg ordered ++ tail)
      ∧ (∀ e ∈ tail, e.isBal = true)
      ∧ (err ≠ none → tail = []) := by
  by_cases hlen : ordered.length = 0
  · have h0 : ordered = [] := List.eq_nil_of_length_eq_zero hlen
    subst h0
    refine ⟨[], ?_, by simp, fun _ => rfl⟩
    simp [extract, h, mkTxns]
  · have hne : ordered ≠ [] := fun h0 => hlen (by rw [h0]; rfl)
    obtain ⟨last, hlast⟩ := getLast_of_ne_nil ordered hne
    cases err with
    | some e =>
      refine ⟨[], ?_, by simp, fun _ => rfl⟩
      simp [extract, h, hlen]
    | none =>
      cases hfd : cfg.firstDay with
      | none =>
        refine ⟨[mkBalanceEntry cfg (last.date + 1) last.balance], ?_, ?_, by simp⟩
        · simp [extract, h, hlen, hfd, hlast]
        · intro e he
          simp at he
          rw [he]
          rfl
      | some a =>
        refine ⟨periodicBalances cfg api
          (api.next (api.greatest_start last.date)) ordered.reverse, ?_, ?_, by simp⟩
        · simp [extract, h, hlen, hfd, hlast]
        · exact periodicBalances_isBal cfg api _ ordered.reverse

theorem C7_txns_in_order_no_balance_on_failure_witness :
    sort_rows [⟨1, 3, "a", 2, 8⟩, ⟨2, 3, "b", 1, 100⟩]
        = .ok ([⟨1, 3, "a", 2, 8⟩, ⟨2, 3, "b", 1, 100⟩], some 1)
    ∧ ∃ tail, extract ⟨"Assets:Chk", "CAD", none⟩ ⟨id, id, id⟩
          [⟨1, 3, "a", 2, 8⟩, ⟨2, 3, "b", 1, 100⟩]
        = .ok (mkTxns ⟨"Assets:Chk", "CAD", none⟩
            [⟨1, 3, "a", 2, 8⟩, ⟨2, 3, "b", 1, 100⟩] ++ tail)
      ∧ (∀ e ∈ tail, e.isBal = true)
      ∧ ((some 1 : Option Nat) ≠ none → tail = []) := by
  have hs : sort_rows [⟨1, 3, "a", 2, 8⟩, ⟨2, 3, "b", 1, 100⟩]
      = .ok ([⟨1, 3, "a", 2, 8⟩, ⟨2, 3, "b", 1, 100⟩], some 1) := by
    norm_num [sort_rows, openingBalances, tryCandidates, placeRows.eq_def]
  exact ⟨hs, C7_txns_in_order_no_balance_on_failure _ _ _ _ _ hs⟩

/-- C5: in unanchored mode (`first_day = None`), on a successful
reconciliation of a non-empty input, `extract` appends exactly one
`BalanceAssertion` after all transactions, dated the day after the last
ordered row's date and asserting that row's balance. -/
theorem C5_single_trailing_balance (cfg : Config) (api : PeriodsApi)
    (rows0 ordered : List Row) (hfd : cfg.firstDay = none)
    (h : sort_rows rows0 = .ok (ordered, none)) (hne : rows0 ≠ []) :
    ∃ last, ordered.getLast? = some last
      ∧ extract cfg api rows0 = .ok (mkTxns cfg ordered
          ++ [mkBalanceEntry cfg (last.date + 1) last.balance]) := by
  have hone : ordered ≠ [] := by
    intro h0
    subst h0
    exact hne ((sort_rows_perm rows0 [] none h).symm.eq_nil)
  have hlen : ¬ ordered.length = 0 := fun h0 => hone (List.eq_nil_of_length_eq_zero h0)
  obtain ⟨last, hlast⟩ := getLast_of_ne_nil ordered hone
  refine ⟨last, hlast, ?_⟩
  simp [extract, h, hlen, hfd, hlast]

theorem C5_single_trailing_balance_witness :
    (⟨"Assets:Chk", "CAD", none⟩ : Config).firstDay = none
    ∧ sort_rows [⟨1, 1, "a", 100, 100⟩, ⟨2, 2, "b", 50, 150⟩, ⟨3, 3, "c", -30, 120⟩]
        = .ok ([⟨1, 1, "a", 100, 100⟩, ⟨2, 2, "b", 50, 150⟩, ⟨3, 3, "c", -30, 120⟩], none)
    ∧ ∃ last, ([⟨1, 1, "a", 100, 100⟩, ⟨2, 2, "b", 50, 150⟩,
          ⟨3, 3, "c", -30, 120⟩] : List Row).getLast? = some last
      ∧ extract ⟨"Assets:Chk", "CAD", none⟩ ⟨id, id, id⟩
            [⟨1, 1, "a", 100, 100⟩, ⟨2, 2, "b", 50, 150⟩, ⟨3, 3, "c", -30, 120⟩]
          = .ok (mkTxns ⟨"Assets:Chk", "CAD", none⟩
              [⟨1, 1, "a", 100, 100⟩, ⟨2, 2, "b", 50, 150⟩, ⟨3, 3, "c", -30, 120⟩]
            ++ [mkBalanceEntry ⟨"Assets:Chk", "CAD", none⟩ (last.date + 1) last.balance]) := by
  have hs : sort_rows [⟨1, 1, "a", 100, 100⟩, ⟨2, 2, "b", 50, 150⟩, ⟨3, 3, "c", -30, 120⟩]
      = .ok ([⟨1, 1, "a", 100, 100⟩, ⟨2, 2, "b", 50, 150⟩, ⟨3, 3, "c", -30, 120⟩], none) := by
    norm_num [sort_rows, openingBalances, tryCandidates, placeRows.eq_def]
  exact ⟨rfl, hs,
    C5_single_trailing_balance ⟨"Assets:Chk", "CAD", none⟩ ⟨id, id, id⟩ _ _ rfl hs (by simp)⟩


theorem PeriodsContract.prev_le {api : PeriodsApi} {isB : Int → Prop}
    (hc : PeriodsContract api isB) (b : Int) : api.prev b ≤ b := by
  have h := hc.lt_next (api.prev b)
  rw [hc.next_prev] at h
  exact le_of_lt h

theorem PeriodsContract.iterPrev_le {api : PeriodsApi} {isB : Int → Prop}
    (hc : PeriodsContract api isB) (j : Nat) (b : Int) : api.prev^[j] b ≤ b := by
  induction j generalizing b with
  | zero => simp
  | succ j ih =>
    rw [Function.iterate_succ_apply]
    exact le_trans (ih _) (hc.prev_le b)

/-- The core characterisation of the `for row in reversed(rows)` walk
(csv.py lines 149-153) on a reversed, date-nonincreasing row list with no
empty billing period between adjacent rows: the walk emits one balance
assertion per consecutive boundary `prev^[i] bd`, the `i`-th asserting the
balance of the latest row dated strictly before that boundary, and stops
exactly when no remaining boundary has a row strictly before it. -/
theorem periodicBalances_spec (api : PeriodsApi) (isB : Int → Prop)
    (hc : PeriodsContract api isB) (cfg : Config) :
    ∀ (rev : List Row) (bd : Int),
    List.Sorted (fun x y : Row => y.date ≤ x.date) rev →
    List.Chain' (fun x y : Row =>
      api.greatest_start x.date ≤ api.next (api.greatest_start y.date)) rev →
    isB bd →
    (∀ x, rev.head? = some x → bd ≤ api.next (api.greatest_start x.date)) →
    (∀ r ∈ rev, r.date < api.next bd) →
    (∀ i, i < (periodicBalances cfg api bd rev).length → ∃ r,
        (rev.filter fun s => s.date < api.prev^[i] bd).head? = some r
        ∧ (periodicBalances cfg api bd rev)[i]?
          = some (mkBalanceEntry cfg (api.prev^[i] bd) r.balance))
    ∧ (rev.filter fun s =>
        s.date < api.prev^[(periodicBalances cfg api bd rev).length] bd) = [] := by
  intro rev
  induction rev with
  | nil =>
    intro bd _ _ _ _ _
    refine ⟨fun i hi => ?_, rfl⟩
    simp [periodicBalances] at hi
  | cons row rest ih =>
    intro bd hsorted hng hbd hb3 hb2
    have hrest_le : ∀ r ∈ rest, r.date ≤ row.date := (List.pairwise_cons.mp hsorted).1
    have hrest_sorted : List.Sorted (fun x y : Row => y.date ≤ x.date) rest :=
      (List.pairwise_cons.mp hsorted).2
    have hng_head : ∀ y ∈ rest.head?,
        api.greatest_start row.date ≤ api.next (api.greatest_start y.date) :=
      (List.chain'_cons'.mp hng).1
    have hng_rest : List.Chain' (fun x y : Row =>
        api.greatest_start x.date ≤ api.next (api.greatest_start y.date)) rest :=
      (List.chain'_cons'.mp hng).2
    by_cases hlt : row.date < bd
    · -- the head row is emitted at boundary `bd`
      have hb3row : bd ≤ api.next (api.greatest_start row.date) := hb3 row rfl
      have hprevbd : api.prev bd ≤ api.greatest_start row.date := by
        have h := hc.prev_mono _ _ hb3row
        rwa [hc.prev_next] at h
      have hrowge : api.prev bd ≤ row.date := le_trans hprevbd (hc.gs_le _)
      have hb3' : ∀ x, rest.head? = some x
          → api.prev bd ≤ api.next (api.greatest_start x.date) := by
        intro x hx
        exact le_trans hprevbd (hng_head x (by rw [hx]; rfl))
      have hb2' : ∀ r ∈ rest, r.date < api.next (api.prev bd) := by
        intro r hr
        rw [hc.next_prev]
        exact lt_of_le_of_lt (hrest_le r hr) hlt
      obtain ⟨iha, ihb⟩ := ih (api.prev bd) hrest_sorted hng_rest (hc.bprev _ hbd) hb3' hb2'
      have hout : periodicBalances cfg api bd (row :: rest)
          = mkBalanceEntry cfg bd row.balance
            :: periodicBalances cfg api (api.prev bd) rest := by
        rw [periodicBalances, if_pos hlt]
      have hlen : (periodicBalances cfg api bd (row :: rest)).length
          = (periodicBalances cfg api (api.prev bd) rest).length + 1 := by
        rw [hout]
        rfl
      constructor
      · intro i hi
        match i with
        | 0 =>
          refine ⟨row, ?_, ?_⟩
          · rw [Function.iterate_zero]
            rw [List.filter_cons_of_pos (by simpa using hlt)]
            rfl
          · rw [hout]
            simp
        | j + 1 =>
          rw [hlen] at hi
          obtain ⟨r, hr1, hr2⟩ := iha j (Nat.lt_of_succ_lt_succ hi)
          refine ⟨r, ?_, ?_⟩
          · rw [Function.iterate_succ_apply]
            rw [List.filter_cons_of_neg ?_]
            · exact hr1
            · simp only [decide_eq_true_eq, not_lt]
              exact le_trans (hc.iterPrev_le j (api.prev bd)) hrowge
          · rw [hout, List.getElem?_cons_succ, Function.iterate_succ_apply]
            exact hr2
      · rw [hlen, Function.iterate_succ_apply]
        rw [List.filter_cons_of_neg ?_]
        · exact ihb
        · simp only [decide_eq_true_eq, not_lt]
          exact le_trans (hc.iterPrev_le _ (api.prev bd)) hrowge
    · -- the head row is skipped: it is not before any remaining boundary
      have hge : bd ≤ row.date := le_of_not_lt hlt
      have hgsrow : api.greatest_start row.date = bd :=
        hc.gs_eq bd row.date hbd hge (hb2 row (by simp))
      have hb3' : ∀ x, rest.head? = some x
          → bd ≤ api.next (api.greatest_start x.date) := by
        intro x hx
        have h := hng_head x (by rw [hx]; rfl)
        rwa [hgsrow] at h
      have hb2' : ∀ r ∈ rest, r.date < api.next bd :=
        fun r hr => hb2 r (List.mem_cons_of_mem _ hr)
      obtain ⟨iha, ihb⟩ := ih bd hrest_sorted hng_rest hbd hb3' hb2'
      have hout : periodicBalances cfg api bd (row :: rest)
          = periodicBalances cfg api bd rest := by
        rw [periodicBalances, if_neg hlt]
      have hfilt : ∀ (i : Nat), (List.filter (fun s => decide (s.date < api.prev^[i] bd))
          (row :: rest)) = rest.filter fun s => s.date < api.prev^[i] bd := by
        intro i
        rw [List.filter_cons_of_neg ?_]
        simp only [decide_eq_true_eq, not_lt]
        exact le_trans (hc.iterPrev_le i bd) hge
      constructor
      · intro i hi
        rw [hout] at hi
        obtain ⟨r, hr1, hr2⟩ := iha i hi
        refine ⟨r, ?_, ?_⟩
        · rw [hfilt]
          exact hr1
        · rw [hout]
          exact hr2
      · rw [hout, hfilt]
        exact ihb

theorem sorted_date_le_last (l : List Row) (last : Row)
    (hs : List.Sorted (fun x y : Row => x.date ≤ y.date) l)
    (hl : l.getLast? = some last) : ∀ r ∈ l, r.date ≤ last.date := by
  induction l with
  | nil => simp at hl
  | cons x xs ih =>
    intro r hr
    cases xs with
    | nil =>
      have hx : x = last := by simpa using hl
      have hrx : r = x := by simpa using hr
      rw [hrx, hx]
    | cons y ys =>
      rw [List.getLast?_cons_cons] at hl
      rcases List.mem_cons.mp hr with hr | hr
      · have hlast_mem : last ∈ y :: ys := by
          obtain ⟨hh, he⟩ := List.mem_getLast?_eq_getLast
            (show last ∈ (y :: ys).getLast? by rw [hl]; rfl)
          rw [he]
          exact List.getLast_mem hh
        have hxy : x.date ≤ last.date := (List.pairwise_cons.mp hs).1 last hlast_mem
        rw [hr]
        exact hxy
      · exact ih (List.pairwise_cons.mp hs).2 hl r hr

/-- C4 (amended): in periodic mode, on a successfully reconciled non-empty
date-sorted statement in which no billing period lying between two
consecutive rows is empty (`hng`), `extract` appends after the transactions
exactly one balance assertion per boundary of the walk
`B i = prev^[i] (next (greatest_start last.date))`: the `i`-th assertion is
dated `B i` and asserts the balance of the last row dated strictly before
`B i`, and the walk stops exactly at the first boundary with no row strictly
before it. -/
theorem C4_periodic_boundary_assertions (cfg : Config) (api : PeriodsApi)
    (isB : Int → Prop) (hc : PeriodsContract api isB) (a : Int)
    (rows0 ordered : List Row)
    (hfd : cfg.firstDay = some a)
    (h : sort_rows rows0 = .ok (ordered, none))
    (hne : rows0 ≠ [])
    (hsorted : List.Sorted (fun x y : Row => x.date ≤ y.date) ordered)
    (hng : List.Chain' (fun x y : Row =>
      api.greatest_start y.date ≤ api.next (api.greatest_start x.date)) ordered) :
    ∃ last tail, ordered.getLast? = some last
      ∧ extract cfg api rows0 = .ok (mkTxns cfg ordered ++ tail)
      ∧ (∀ i, i < tail.length → ∃ r,
          lastRowBefore ordered
              (api.prev^[i] (api.next (api.greatest_start last.date))) = some r
          ∧ tail[i]? = some (mkBalanceEntry cfg
              (api.prev^[i] (api.next (api.greatest_start last.date))) r.balance))
      ∧ lastRowBefore ordered
          (api.prev^[tail.length] (api.next (api.greatest_start last.date))) = none := by
  have hone : ordered ≠ [] := by
    intro h0
    subst h0
    exact hne ((sort_rows_perm rows0 [] none h).symm.eq_nil)
  have hlen0 : ¬ ordered.length = 0 := fun h0 => hone (List.eq_nil_of_length_eq_zero h0)
  obtain ⟨last, hlast⟩ := getLast_of_ne_nil ordered hone
  have hrevsorted : List.Sorted (fun x y : Row => y.date ≤ x.date) ordered.reverse := by
    rw [List.Sorted, List.pairwise_reverse]
    exact hsorted
  have hrevchain : List.Chain' (fun x y : Row =>
      api.greatest_start x.date ≤ api.next (api.greatest_start y.date)) ordered.reverse := by
    rw [List.chain'_reverse]
    exact hng
  have hisB : isB (api.next (api.greatest_start last.date)) :=
    hc.bnext _ (hc.bgs last.date)
  have hhead : ∀ x, ordered.reverse.head? = some x
      → api.next (api.greatest_start last.date)
        ≤ api.next (api.greatest_start x.date) := by
    intro x hx
    rw [List.head?_reverse, hlast] at hx
    cases hx
    exact le_refl _
  have hb2 : ∀ r ∈ ordered.reverse,
      r.date < api.next (api.next (api.greatest_start last.date)) := by
    intro r hr
    rw [List.mem_reverse] at hr
    have h1 : r.date ≤ last.date := sorted_date_le_last ordered last hsorted hlast r hr
    have h2 : last.date < api.next (api.greatest_start last.date) := hc.lt_next_gs _
    have h3 := hc.lt_next (api.next (api.greatest_start last.date))
    omega
  obtain ⟨walkA, walkB⟩ := periodicBalances_spec api isB hc cfg ordered.reverse
    (api.next (api.greatest_start last.date)) hrevsorted hrevchain hisB hhead hb2
  refine ⟨last, periodicBalances cfg api
    (api.next (api.greatest_start last.date)) ordered.reverse, hlast, ?_, ?_, ?_⟩
  · simp [extract, h, hlen0, hfd, hlast]
  · intro i hi
    obtain ⟨r, hr1, hr2⟩ := walkA i hi
    refine ⟨r, ?_, hr2⟩
    rw [lastRowBefore, ← List.head?_reverse, ← List.filter_reverse]
    exact hr1
  · rw [lastRowBefore, ← List.head?_reverse, ← List.filter_reverse]
    rw [walkB]
    rfl


theorem api30_contract : PeriodsContract api30 isB30 := by
  refine ⟨?_, ?_, ?_, ?_, ?_, ?_, ?_, ?_, ?_, ?_⟩ <;>
    intros <;> simp only [api30, isB30] at * <;> omega

/-- C4 counterexample: with thirty-day periods anchored at day 1 and rows
dated 2, 5 and 70 (so the billing period `[31, 61)` spanned by the statement
holds no row), `extract` emits the assertion dated at boundary 31 carrying
the balance 5 of the row dated 2, although the last row strictly before
boundary 31 is the row dated 5 with balance 8 — and no assertion at all is
dated at a boundary of the period `[1, 31)` although rows precede boundary
31.  So the output is not "one assertion per boundary crossed, each
asserting the balance of the last row strictly before it" as the claim
states. -/
theorem C4_counterexample :
    extract ⟨"Liabilities:Card", "CAD", some 1⟩ api30
        [⟨1, 2, "a", 5, 5⟩, ⟨2, 5, "b", 3, 8⟩, ⟨3, 70, "c", 2, 10⟩]
      = .ok (mkTxns ⟨"Liabilities:Card", "CAD", some 1⟩
          [⟨1, 2, "a", 5, 5⟩, ⟨2, 5, "b", 3, 8⟩, ⟨3, 70, "c", 2, 10⟩]
        ++ [mkBalanceEntry ⟨"Liabilities:Card", "CAD", some 1⟩ 91 10,
            mkBalanceEntry ⟨"Liabilities:Card", "CAD", some 1⟩ 61 8,
            mkBalanceEntry ⟨"Liabilities:Card", "CAD", some 1⟩ 31 5])
    ∧ (lastRowBefore [⟨1, 2, "a", 5, 5⟩, ⟨2, 5, "b", 3, 8⟩, ⟨3, 70, "c", 2, 10⟩] 31).map
        Row.balance = some 8
    ∧ (5 : ℚ) ≠ 8 := by
  refine ⟨?_, ?_, by norm_num⟩
  · norm_num [extract, sort_rows, openingBalances, tryCandidates, placeRows.eq_def,
      periodicBalances, api30, mkBalanceEntry]
  · norm_num [lastRowBefore]

theorem C4_periodic_boundary_assertions_witness :
    ∃ last tail,
      ([⟨1, 5, "a", 5, 5⟩, ⟨2, 35, "b", 3, 8⟩] : List Row).getLast? = some last
      ∧ extract ⟨"Liabilities:Card", "CAD", some 1⟩ api30
            [⟨1, 5, "a", 5, 5⟩, ⟨2, 35, "b", 3, 8⟩]
          = .ok (mkTxns ⟨"Liabilities:Card", "CAD", some 1⟩
              [⟨1, 5, "a", 5, 5⟩, ⟨2, 35, "b", 3, 8⟩] ++ tail)
      ∧ (∀ i, i < tail.length → ∃ r,
          lastRowBefore [⟨1, 5, "a", 5, 5⟩, ⟨2, 35, "b", 3, 8⟩]
              (api30.prev^[i] (api30.next (api30.greatest_start last.date))) = some r
          ∧ tail[i]? = some (mkBalanceEntry ⟨"Liabilities:Card", "CAD", some 1⟩
              (api30.prev^[i] (api30.next (api30.greatest_start last.date))) r.balance))
      ∧ lastRowBefore [⟨1, 5, "a", 5, 5⟩, ⟨2, 35, "b", 3, 8⟩]
          (api30.prev^[tail.length] (api30.next (api30.greatest_start last.date))) = none := by
  have hs : sort_rows [⟨1, 5, "a", 5, 5⟩, ⟨2, 35, "b", 3, 8⟩]
      = .ok ([⟨1, 5, "a", 5, 5⟩, ⟨2, 35, "b", 3, 8⟩], none) := by
    norm_num [sort_rows, openingBalances, tryCandidates, placeRows.eq_def]
  have hsorted : List.Sorted (fun x y : Row => x.date ≤ y.date)
      [⟨1, 5, "a", 5, 5⟩, ⟨2, 35, "b", 3, 8⟩] := by
    simp [List.sorted_cons]
  have hng : List.Chain' (fun x y : Row =>
      api30.greatest_start y.date ≤ api30.next (api30.greatest_start x.date))
      [⟨1, 5, "a", 5, 5⟩, ⟨2, 35, "b", 3, 8⟩] := by
    simp [List.chain'_cons, api30]
  exact C4_periodic_boundary_assertions ⟨"Liabilities:Card", "CAD", some 1⟩ api30
    isB30 api30_contract 1 _ _ rfl hs (by simp) hsorted hng
